import Mathlib

/-
Verification of the surgery-scheduling formulation engine
(surgery_scheduler_base.py, check_instance.py, results_analyzer.py).

Instance data (ids, capacities, means, standard deviations, alpha and
epsilon values) are modelled as rational numbers; the analytic values the
code derives from them (buffered durations via math.sqrt, reliability
logarithms via math.log) live in the real numbers.
-/

namespace SurgSched

/-- A (mean, standard deviation) pair as stored in an instance. -/
structure MuSigma where
  mu : ℚ
  sigma : ℚ
deriving DecidableEq, Repr

/-- How a surgery specifies its stochastic duration parameters:
a per-(room, doctor) table keyed by the string "room|doctor"
(the surgery's mu_sigma field), a flat (duration_mean, duration_std)
pair, or neither field present. -/
inductive DurSpec where
  | table (entries : List (String × MuSigma))
  | flat (duration_mean duration_std : ℚ)
  | missing
deriving DecidableEq, Repr

/-- A surgery record: id, optional specialty, duration specification. -/
structure Surgery where
  id : String
  specialty : Option String
  durSpec : DurSpec
deriving DecidableEq, Repr

/-- A day record: id and regular-hours capacity H (minutes). -/
structure Day where
  id : String
  H : ℚ
deriving DecidableEq, Repr

/-- A room record: id and supported specialty types (room.get of types,
empty list when the field is absent). -/
structure Room where
  id : String
  types : List String
deriving DecidableEq, Repr

/-- A doctor record: id, optional per-day capacity mapping
(daily_capacity, a dict in the source), and specialties
(doctor.get of specialties, empty list when absent). -/
structure Doctor where
  id : String
  daily_capacity : Option (List (String × ℚ))
  specialties : List String
deriving DecidableEq, Repr

/-- A problem instance: the four collections of the JSON document. -/
structure ProblemInstance where
  surgeries : List Surgery
  days : List Day
  rooms : List Room
  doctors : List Doctor
deriving DecidableEq, Repr

/-- Lookup with Python-dict semantics on an association list whose keys
are strings: the LAST binding of a key wins (later dict insertions
overwrite earlier ones). -/
def qlookup {α : Type} (m : List (String × α)) (k : String) : Option α :=
  (m.reverse.find? (fun p => p.1 == k)).map (fun p => p.2)

/-- Python dict built from a list of records keyed by their id
(dict comprehensions like doc_dict in build_model): the last record
with a given id wins. -/
def dictOf {α : Type} (l : List α) (key : α → String) (k : String) : Option α :=
  l.reverse.find? (fun x => key x == k)

/-- Resolution of (mu, sigma) for a (surgery, room, doctor) combination,
from precompute_durations (surgery_scheduler_base.py lines 74-93):
if the surgery has a mu_sigma table, look up the "room|doctor" key;
otherwise if it has duration_mean, apply the specialty gate (the
surgery's specialty must be among the doctor's specialties and the
room's types) and use the flat pair; a failed lookup or gate, or a
surgery with neither field, leaves (mu, sigma) unresolved. -/
def resolveMuSigma (s : Surgery) (room : Room) (doc : Doctor) : Option MuSigma :=
  match s.durSpec with
  | .table entries => qlookup entries (room.id ++ "|" ++ doc.id)
  | .flat mean std =>
      match s.specialty with
      | some sp =>
          if sp ∈ doc.specialties ∧ sp ∈ room.types then some ⟨mean, std⟩ else none
      | none => some ⟨mean, std⟩
  | .missing => none

/-- A precomputed duration entry: float('inf') when alpha ≥ 1, otherwise
the Cantelli value determined by the stored (mu, sigma, alpha). -/
inductive DurE where
  | inf
  | val (mu sigma alpha : ℚ)
deriving DecidableEq, Repr

/-- Cantelli-type buffered duration, precompute_durations lines 100-101:
buffer = sigma * sqrt((1 - alpha) / alpha); buffered = mu + buffer. -/
noncomputable def buffered (mu sigma alpha : ℝ) : ℝ :=
  mu + sigma * Real.sqrt ((1 - alpha) / alpha)

/-- The real value of a finite duration entry; none for the infinite one. -/
noncomputable def DurE.realValue : DurE → Option ℝ
  | .inf => none
  | .val mu sigma alpha => some (buffered mu sigma alpha)

/-- The comparison dur > c used by _preprocess_and_fix: the infinite
entry exceeds every finite bound. -/
def DurE.exceedsR (e : DurE) (c : ℚ) : Prop :=
  match e with
  | .inf => True
  | .val mu sigma alpha => buffered mu sigma alpha > (c : ℝ)

/-- The durations table of precompute_durations, read at
durations[j][r][k].get(t): some entry exactly when the ids are present,
(mu, sigma) resolves, and t indexes into alpha_choices; the entry is
inf when that alpha is ≥ 1 and the Cantelli value otherwise
(lines 95-103). -/
def durAt (inst : ProblemInstance) (alphas : List ℚ) (j r k : String) (t : ℕ) :
    Option DurE :=
  match dictOf inst.surgeries Surgery.id j, dictOf inst.rooms Room.id r,
        dictOf inst.doctors Doctor.id k with
  | some s, some room, some doc =>
      match resolveMuSigma s room doc, alphas.get? t with
      | some ms, some a => some (if 1 ≤ a then .inf else .val ms.mu ms.sigma a)
      | _, _ => none
  | _, _, _ => none

/-- Doctor-day capacity as resolved by build_model (lines 140-145) and
by _preprocess_and_fix (lines 252-257), whose code is identical:
daily_capacity.get(day, 0) — note the DEFAULT 0, both for a day missing
from the mapping and for a doctor with no mapping at all (in which case
the source reads the empty dict). -/
def capBuildPre (doc : Doctor) (d : String) : ℚ :=
  (qlookup (doc.daily_capacity.getD []) d).getD 0

/-- Doctor-day capacity as resolved by doc_cap_rule (lines 299-303) and
doc_day_aggregate_cut_rule (lines 438-442): daily_capacity.get(day, H),
defaulting to the day's regular hours H. -/
def capDocRule (doc : Doctor) (d : String) (H : ℚ) : ℚ :=
  (qlookup (doc.daily_capacity.getD []) d).getD H

/-- Instance-level doctor-day capacity used by build_model and
_preprocess_and_fix: look the doctor up in doc_dict and apply
capBuildPre; the fallback to the day's H (source lines 146-147 and
258-259) is reachable only for an id absent from doc_dict, which never
happens for ids drawn from the doctors collection. -/
def capResolve (inst : ProblemInstance) (k d : String) : ℚ :=
  match dictOf inst.doctors Doctor.id k, dictOf inst.days Day.id d with
  | some doc, _ => capBuildPre doc d
  | none, some day => day.H
  | none, none => 0

/-- A (surgery, day, room, doctor, alpha-index) tuple, the index type of
the w variables. -/
abbrev Tup := String × String × String × String × ℕ

/-- The set of tuples _preprocess_and_fix (lines 246-276) fixes to zero:
for ids drawn from the instance collections and alpha indices in range,
when the resolved doctor-day capacity is zero every (room, index) pair is
added; otherwise a tuple is added exactly when its duration entry exists
and exceeds capacity + max doctor overtime. -/
def fixedSet (inst : ProblemInstance) (alphas : List ℚ) (max_ot_doc : ℚ) :
    Set Tup :=
  { x : Tup |
      x.1 ∈ inst.surgeries.map Surgery.id ∧
      x.2.1 ∈ inst.days.map Day.id ∧
      x.2.2.2.1 ∈ inst.doctors.map Doctor.id ∧
      x.2.2.1 ∈ inst.rooms.map Room.id ∧
      x.2.2.2.2 < alphas.length ∧
      (if capResolve inst x.2.2.2.1 x.2.1 = 0 then True
       else ∃ e, durAt inst alphas x.1 x.2.2.1 x.2.2.2.1 x.2.2.2.2 = some e ∧
         DurE.exceedsR e (capResolve inst x.2.2.2.1 x.2.1 + max_ot_doc)) }

/-- The VALID set of build_model (lines 135-154): tuples over the
instance collections whose resolved doctor-day capacity is strictly
positive, whose duration entry is present, and which were not fixed to
zero by preprocessing. -/
def validSet (inst : ProblemInstance) (alphas : List ℚ) (max_ot_doc : ℚ) :
    Set Tup :=
  { x : Tup |
      x.1 ∈ inst.surgeries.map Surgery.id ∧
      x.2.1 ∈ inst.days.map Day.id ∧
      x.2.2.1 ∈ inst.rooms.map Room.id ∧
      x.2.2.2.1 ∈ inst.doctors.map Doctor.id ∧
      0 < capResolve inst x.2.2.2.1 x.2.1 ∧
      (durAt inst alphas x.1 x.2.2.1 x.2.2.2.1 x.2.2.2.2).isSome = true ∧
      x ∉ fixedSet inst alphas max_ot_doc }

/-- The epsilon configuration input: a single number or a per-day dict. -/
inductive EpsInput where
  | glob (e : ℚ)
  | perDay (m : List (String × ℚ))
deriving DecidableEq, Repr

/-- Per-day epsilon as resolved by build_model (lines 113-117): a numeric
epsilon is used for every day; a dict is read with epsilon.get(day, 0.25),
a hard-wired default of 0.25. -/
def epsDictBuild (eps : EpsInput) (d : String) : ℚ :=
  match eps with
  | .glob e => e
  | .perDay m => (qlookup m d).getD (1/4)

/-- Epsilon as resolved by check_instance_feasibility (line 122):
the value itself when it is a float, otherwise a hard-wired 0.25
(a per-day dict is ignored entirely). -/
def epsCheck (eps : EpsInput) : ℚ :=
  match eps with
  | .glob e => e
  | .perDay _ => 1/4

/-- Per-day epsilon as resolved by verify_reliability
(results_analyzer.py lines 208-211): epsilon.get(day, 0.25) for a dict,
the value itself otherwise. -/
def epsVerify (eps : EpsInput) (d : String) : ℚ :=
  match eps with
  | .glob e => e
  | .perDay m => (qlookup m d).getD (1/4)

/-- Whether any (surgery, room, doctor) combination received any duration
entry: precompute_durations populates the inner dict for a combination
exactly when (mu, sigma) resolves, one entry per configured alpha.
build_model's max_dur computation (lines 220-222) raises ValueError (max
of an empty sequence) exactly when this is false. -/
def hasAnyDuration (inst : ProblemInstance) (alphas : List ℚ) : Bool :=
  !alphas.isEmpty &&
  (inst.surgeries.map Surgery.id).any (fun j =>
    (inst.rooms.map Room.id).any (fun r =>
      (inst.doctors.map Doctor.id).any (fun k =>
        match dictOf inst.surgeries Surgery.id j, dictOf inst.rooms Room.id r,
              dictOf inst.doctors Doctor.id k with
        | some s, some room, some doc => (resolveMuSigma s room doc).isSome
        | _, _, _ => false)))

/-- The parts of the built model the verified claims are about. -/
structure BuiltModel where
  valid : Set Tup
  fixed : Set Tup
  epsDay : String → ℚ

/-- build_model (lines 107-239): precompute durations, resolve epsilon,
run preprocessing, build VALID; the only failure mode on the modelled
fragment is the ValueError raised by the max over all duration entries
when every combination's duration dict is empty. -/
def buildModel (inst : ProblemInstance) (alphas : List ℚ) (eps : EpsInput)
    (max_ot_doc : ℚ) : Except String BuiltModel :=
  if hasAnyDuration inst alphas then
    .ok { valid := validSet inst alphas max_ot_doc
          fixed := fixedSet inst alphas max_ot_doc
          epsDay := fun d => epsDictBuild eps d }
  else
    .error "ValueError: max arg is an empty sequence"

/-- Python max over a nonempty list of reals ([] is never passed by the
modelled code; 0 is an arbitrary value for it). -/
def listMax (l : List ℝ) : ℝ :=
  match l with
  | [] => 0
  | x :: xs => xs.foldl max x

/-- Python max over a nonempty list of rationals. -/
def listMaxQ (l : List ℚ) : ℚ :=
  match l with
  | [] => 0
  | x :: xs => xs.foldl max x

/-- Python min over a nonempty list of rationals. -/
def listMinQ (l : List ℚ) : ℚ :=
  match l with
  | [] => 0
  | x :: xs => xs.foldl min x

/-- check_instance_feasibility line 125: max_ln_alpha, the maximum of
ln(1 - a) over the configured alpha choices. -/
noncomputable def max_ln_alpha (alphas : List ℚ) : ℝ :=
  listMax (alphas.map (fun a : ℚ => Real.log (1 - (a : ℝ))))

/-- check_instance_feasibility line 123: ln(1 - epsilon). -/
noncomputable def required_ln (epsVal : ℚ) : ℝ :=
  Real.log (1 - (epsVal : ℝ))

/-- check_instance_feasibility line 134: the achievable per-day
log-reliability when n surgeries share a day. -/
noncomputable def achievable_ln (alphas : List ℚ) (n : ℕ) : ℝ :=
  (n : ℝ) * max_ln_alpha alphas

/-- check_instance_feasibility line 135: the per-count feasibility flag
of a reliability check entry. -/
def checkFeasible (alphas : List ℚ) (epsVal : ℚ) (n : ℕ) : Prop :=
  required_ln epsVal ≤ achievable_ln alphas n

/-- check_instance_feasibility lines 128-151: reliability_feasible is
true when some count n between 1 and the number of surgeries has a
feasible reliability check entry. -/
def reliability_feasible (alphas : List ℚ) (epsVal : ℚ) (numSurgeries : ℕ) :
    Prop :=
  ∃ n, 1 ≤ n ∧ n ≤ numSurgeries ∧ checkFeasible alphas epsVal n

/-- The fields of a realized schedule entry that verify_reliability
reads: the day it is placed on and the alpha of its chosen risk level. -/
structure SchedEntry where
  day : String
  alpha : ℚ
deriving DecidableEq, Repr

/-- One Python-dict update step of the by_day grouping in
verify_reliability (results_analyzer.py lines 196-200): append the entry
to its day's list, creating the key at the end on first sight. -/
def addToDay (acc : List (String × List SchedEntry)) (s : SchedEntry) :
    List (String × List SchedEntry) :=
  match acc with
  | [] => [(s.day, [s])]
  | p :: ps => if p.1 = s.day then (p.1, p.2 ++ [s]) :: ps else p :: addToDay ps s

/-- The by_day grouping of a schedule, in dict insertion order. -/
def byDay (sch : List SchedEntry) : List (String × List SchedEntry) :=
  sch.foldl addToDay []

/-- A per-day entry of the reliability_check report of
verify_reliability (results_analyzer.py lines 216-222). -/
structure RelCheck where
  lhs : ℝ
  rhs : ℝ
  slack : ℝ
  satisfied : Prop
  epsilon : ℚ

/-- verify_reliability (results_analyzer.py lines 186-224): for each day
carrying at least one scheduled surgery, lhs is the sum of ln(1 - alpha)
over that day's surgeries (the ln1ma table holds ln(1 - a) for each
configured alpha), rhs is ln(1 - epsilon) for that day's resolved
epsilon, slack is lhs - rhs, and satisfied is slack ≥ -1e-6. -/
noncomputable def verify_reliability (sch : List SchedEntry) (eps : EpsInput) :
    List (String × RelCheck) :=
  (byDay sch).map (fun p =>
    let lhs : ℝ := (p.2.map (fun s => Real.log (1 - (s.alpha : ℝ)))).sum
    let epsv : ℚ := epsVerify eps p.1
    let rhs : ℝ := Real.log (1 - (epsv : ℝ))
    (p.1, { lhs := lhs, rhs := rhs, slack := lhs - rhs,
            satisfied := lhs - rhs ≥ -(1/1000000 : ℝ), epsilon := epsv }))

/-- Concrete surgery with a flat (mean, std) = (100, 0) and no specialty. -/
def okSurgery : Surgery := ⟨"S1", none, .flat 100 0⟩

/-- Concrete room with no type restrictions. -/
def okRoom : Room := ⟨"R1", []⟩

/-- Concrete day with 480 regular minutes. -/
def okDay : Day := ⟨"D1", 480⟩

/-- Concrete doctor with capacity 480 on day D1. -/
def okDoctor : Doctor := ⟨"K1", some [("D1", 480)], []⟩

/-- A well-formed one-surgery instance. -/
def okInst : ProblemInstance := ⟨[okSurgery], [okDay], [okRoom], [okDoctor]⟩

/-- A doctor whose daily_capacity mapping is absent altogether. -/
def noCapDoctor : Doctor := ⟨"K1", none, []⟩

/-- The okInst instance with the mapping-free doctor. -/
def bugInst : ProblemInstance := ⟨[okSurgery], [okDay], [okRoom], [noCapDoctor]⟩

/-- A doctor with explicit zero capacity on day D1. -/
def zeroCapDoctor : Doctor := ⟨"K1", some [("D1", 0)], []⟩

/-- The okInst instance with the zero-capacity doctor. -/
def instZ : ProblemInstance := ⟨[okSurgery], [okDay], [okRoom], [zeroCapDoctor]⟩

/-- A surgery whose mu_sigma table covers room R1 with doctor K1 only. -/
def badSurgery : Surgery := ⟨"S1", none, .table [("R1|K1", ⟨100, 0⟩)]⟩

/-- A second room, not covered by badSurgery's table. -/
def badRoom2 : Room := ⟨"R2", []⟩

/-- A day with non-positive (zero) regular-hours capacity. -/
def badDay : Day := ⟨"D1", 0⟩

/-- A malformed instance: badSurgery has no (mu, sigma) for room R2,
and the single day has capacity 0. -/
def badInst : ProblemInstance := ⟨[badSurgery], [badDay], [okRoom, badRoom2], [okDoctor]⟩

/-- An alpha choice set containing the illegal value 3/2 ≥ 1. -/
def badAlphas : List ℚ := [3/2, 1/2]

/-- Association-list lookup on dict state built by addToDay: the first
(and, on reachable states, only) binding of a key. -/
def lookupA (acc : List (String × List SchedEntry)) (d : String) :
    Option (List SchedEntry) :=
  (acc.find? (fun p => p.1 == d)).map (fun p => p.2)

/-- The surgeries of a schedule realized on a given day. -/
def grp (sch : List SchedEntry) (d : String) : List SchedEntry :=
  sch.filter (fun s => s.day == d)

/-- C8: for a non-negative standard deviation and alphas in (0,1), the
buffered duration is monotonically non-increasing in alpha and is always
at least the mean. -/
theorem C8_buffered_monotone (mu sigma : ℝ) (hs : 0 ≤ sigma) :
    (∀ a b : ℝ, 0 < a → a ≤ b → b < 1 →
      buffered mu sigma b ≤ buffered mu sigma a) ∧
    (∀ a : ℝ, 0 < a → a < 1 → mu ≤ buffered mu sigma a) := by
  constructor
  · intro a b ha hab _
    have hb0 : 0 < b := lt_of_lt_of_le ha hab
    have hdiv : (1 - b) / b ≤ (1 - a) / a := by
      rw [div_le_div_iff₀ hb0 ha]
      nlinarith
    have hsq := Real.sqrt_le_sqrt hdiv
    have h2 : sigma * Real.sqrt ((1 - b) / b) ≤ sigma * Real.sqrt ((1 - a) / a) :=
      mul_le_mul_of_nonneg_left hsq hs
    unfold buffered
    linarith
  · intro a _ _
    have h0 : 0 ≤ sigma * Real.sqrt ((1 - a) / a) :=
      mul_nonneg hs (Real.sqrt_nonneg _)
    unfold buffered
    linarith

theorem C8_buffered_monotone_witness :
    buffered 5 1 (3/4) ≤ buffered 5 1 (1/2) ∧ (5 : ℝ) ≤ buffered 5 1 (1/2) :=
  ⟨(C8_buffered_monotone 5 1 (by norm_num)).1 (1/2) (3/4) (by norm_num)
      (by norm_num) (by norm_num),
   (C8_buffered_monotone 5 1 (by norm_num)).2 (1/2) (by norm_num) (by norm_num)⟩

/-- C6 counterexample: with a per-day epsilon mapping, the feasibility
check ignores the caller's values and uses a hard-wired 0.25, and model
construction and the post-solve verification fall back to a hard-wired
0.25 for a day missing from the mapping. -/
theorem C6_epsilon_default_counterexample :
    epsCheck (.perDay [("D1", 9/10)]) = 1/4 ∧
    (9/10 : ℚ) ≠ 1/4 ∧
    epsDictBuild (.perDay [("D1", 9/10)]) "D2" = 1/4 ∧
    epsVerify (.perDay [("D1", 9/10)]) "D2" = 1/4 :=
  ⟨rfl, by norm_num, rfl, rfl⟩

/-- C6 amended: a single numeric epsilon is applied as given by all three
components; a per-day mapping is applied by model construction and by
post-solve verification with a hard-wired default of 0.25 for missing
days, while the feasibility check replaces any mapping by 0.25. -/
theorem C6_epsilon_resolution_amended (e : ℚ) (m : List (String × ℚ)) (d : String) :
    (epsCheck (.glob e) = e ∧ epsDictBuild (.glob e) d = e ∧
      epsVerify (.glob e) d = e) ∧
    epsCheck (.perDay m) = 1/4 ∧
    (∀ v, qlookup m d = some v →
      epsDictBuild (.perDay m) d = v ∧ epsVerify (.perDay m) d = v) ∧
    (qlookup m d = none →
      epsDictBuild (.perDay m) d = 1/4 ∧ epsVerify (.perDay m) d = 1/4) := by
  refine ⟨⟨rfl, rfl, rfl⟩, rfl, ?_, ?_⟩
  · intro v hv
    constructor <;> simp [epsDictBuild, epsVerify, hv]
  · intro hv
    constructor <;> simp [epsDictBuild, epsVerify, hv]

theorem C6_epsilon_resolution_amended_witness :
    epsDictBuild (.perDay [("D1", 1/2)]) "D1" = 1/2 :=
  ((C6_epsilon_resolution_amended (9/10) [("D1", 1/2)] "D1").2.2.1 (1/2) rfl).1

/-- C2: the code resolves a doctor-day capacity differently in different
components. For a doctor with no daily_capacity mapping, build_model and
the preprocessing resolve 0 (excluding the doctor from every admissible
combination: VALID is empty), while doc_cap_rule resolves the day's
regular hours H, which is what the specification prescribes. -/
theorem C2_doctor_capacity_default_code_bug :
    capBuildPre noCapDoctor "D1" = 0 ∧
    capDocRule noCapDoctor "D1" 480 = 480 ∧
    capResolve bugInst "K1" "D1" = 0 ∧
    validSet bugInst [1/2] 60 = ∅ := by
  refine ⟨rfl, rfl, rfl, ?_⟩
  ext x
  simp only [Set.mem_empty_iff_false, iff_false]
  rintro ⟨-, hd, -, hk, hcap, -, -⟩
  have hk' : x.2.2.2.1 = "K1" := by
    simpa [bugInst, noCapDoctor] using hk
  have hd' : x.2.1 = "D1" := by
    simpa [bugInst, okDay] using hd
  rw [hk', hd'] at hcap
  have hzero : capResolve bugInst "K1" "D1" = 0 := rfl
  rw [hzero] at hcap
  exact lt_irrefl 0 hcap

/-- An out-of-range alpha index yields no duration entry. -/
theorem durAt_none_of_ge {inst : ProblemInstance} {alphas : List ℚ}
    {j r k : String} {t : ℕ} (hlen : alphas.length ≤ t) :
    durAt inst alphas j r k t = none := by
  unfold durAt
  split
  · split
    · rename_i heq1 heq2
      rw [List.get?_eq_none.mpr hlen] at heq2
      exact absurd heq2 (by simp)
    · rfl
  · rfl

/-- A present duration entry implies the alpha index is in range. -/
theorem durAt_some_lt {inst : ProblemInstance} {alphas : List ℚ}
    {j r k : String} {t : ℕ} {e : DurE}
    (h : durAt inst alphas j r k t = some e) : t < alphas.length := by
  by_contra hlen
  rw [durAt_none_of_ge (le_of_not_lt hlen)] at h
  exact absurd h (by simp)

/-- C4: for a resolvable (surgery, room, doctor) combination and an alpha
drawn from the choice set, the precomputed duration is the Cantelli value
mu + sigma * sqrt((1 - alpha) / alpha) when 0 < alpha < 1, and is the
infinite placeholder when alpha ≥ 1, in which case the tuple is excluded
from every admissible (VALID) combination. -/
theorem C4_duration_formula (inst : ProblemInstance) (alphas : List ℚ)
    (j r k : String) (t : ℕ) (s : Surgery) (room : Room) (doc : Doctor)
    (ms : MuSigma) (a : ℚ)
    (hs : dictOf inst.surgeries Surgery.id j = some s)
    (hr : dictOf inst.rooms Room.id r = some room)
    (hk : dictOf inst.doctors Doctor.id k = some doc)
    (hms : resolveMuSigma s room doc = some ms)
    (ha : alphas.get? t = some a) :
    (0 < a → a < 1 →
      durAt inst alphas j r k t = some (.val ms.mu ms.sigma a) ∧
      DurE.realValue (.val ms.mu ms.sigma a) =
        some ((ms.mu : ℝ) + (ms.sigma : ℝ) *
          Real.sqrt ((1 - (a : ℝ)) / (a : ℝ)))) ∧
    (1 ≤ a →
      durAt inst alphas j r k t = some .inf ∧
      DurE.realValue .inf = none ∧
      ∀ d mo, (j, d, r, k, t) ∉ validSet inst alphas mo) := by
  rw [List.get?_eq_getElem?] at ha
  constructor
  · intro _ ha1
    constructor
    · simp [durAt, hs, hr, hk, hms, ha, not_le.mpr ha1]
    · rfl
  · intro h1
    have hdur : durAt inst alphas j r k t = some .inf := by
      simp [durAt, hs, hr, hk, hms, ha, h1]
    refine ⟨hdur, rfl, ?_⟩
    intro d mo hval
    obtain ⟨hj, hd, hr', hk', hcap, -, hnf⟩ := hval
    apply hnf
    refine ⟨hj, hd, hk', hr', durAt_some_lt hdur, ?_⟩
    by_cases hc : capResolve inst k d = 0
    · rw [if_pos hc]; trivial
    · rw [if_neg hc]
      exact ⟨.inf, hdur, trivial⟩

theorem C4_duration_formula_witness :
    durAt okInst [1/2, 3/2] "S1" "R1" "K1" 0 = some (.val 100 0 (1/2)) ∧
    durAt okInst [1/2, 3/2] "S1" "R1" "K1" 1 = some .inf :=
  ⟨((C4_duration_formula okInst [1/2, 3/2] "S1" "R1" "K1" 0 okSurgery okRoom
      okDoctor ⟨100, 0⟩ (1/2) rfl rfl rfl rfl rfl).1
      (by norm_num) (by norm_num)).1,
   ((C4_duration_formula okInst [1/2, 3/2] "S1" "R1" "K1" 1 okSurgery okRoom
      okDoctor ⟨100, 0⟩ (3/2) rfl rfl rfl rfl rfl).2
      (by norm_num)).1⟩

/-- C3 counterexample: an instance with a surgery missing its (mu, sigma)
mapping for a (room, doctor) combination, an alpha choice ≥ 1 in the set,
and a non-positive day capacity, on which model construction nevertheless
succeeds instead of failing with a fatal error. -/
theorem C3_input_errors_counterexample :
    resolveMuSigma badSurgery badRoom2 okDoctor = none ∧
    ((3/2 : ℚ) ∈ badAlphas ∧ (1 : ℚ) ≤ 3/2) ∧
    badDay.H ≤ 0 ∧
    (buildModel badInst badAlphas (.glob (1/4)) 60).isOk = true := by
  refine ⟨rfl, ⟨by simp [badAlphas], by norm_num⟩, le_refl 0, rfl⟩

/-- C3 amended: a (surgery, room, doctor) combination whose (mu, sigma)
cannot be resolved is silently skipped — it receives no duration entry
and never enters VALID — and model construction succeeds exactly when
some combination received a duration entry (otherwise the max over all
entries raises). -/
theorem C3_input_errors_amended (inst : ProblemInstance) (alphas : List ℚ)
    (eps : EpsInput) (mo : ℚ) (j r k : String) (t : ℕ)
    (s : Surgery) (room : Room) (doc : Doctor)
    (hs : dictOf inst.surgeries Surgery.id j = some s)
    (hr : dictOf inst.rooms Room.id r = some room)
    (hk : dictOf inst.doctors Doctor.id k = some doc)
    (hms : resolveMuSigma s room doc = none) :
    durAt inst alphas j r k t = none ∧
    (∀ d, (j, d, r, k, t) ∉ validSet inst alphas mo) ∧
    ((buildModel inst alphas eps mo).isOk = true ↔
      hasAnyDuration inst alphas = true) := by
  have hdur : durAt inst alphas j r k t = none := by
    simp [durAt, hs, hr, hk, hms]
  refine ⟨hdur, ?_, ?_⟩
  · intro d hval
    obtain ⟨-, -, -, -, -, hsome, -⟩ := hval
    rw [hdur] at hsome
    exact absurd hsome (by simp)
  · unfold buildModel
    cases hA : hasAnyDuration inst alphas <;>
      simp [hA, Except.isOk, Except.toBool]

theorem C3_input_errors_amended_witness :
    durAt badInst badAlphas "S1" "R2" "K1" 0 = none :=
  (C3_input_errors_amended badInst badAlphas (.glob (1/4)) 60 "S1" "R2" "K1" 0
    badSurgery badRoom2 okDoctor rfl rfl rfl rfl).1

/-- C5: preprocessing fixes a combination to zero exactly when (ids and
alpha index in range and) the resolved doctor-day capacity is zero or the
combination's duration entry exists and exceeds capacity + max doctor
overtime; and when the capacity is zero, every room and risk level for
that surgery-day-doctor is excluded. -/
theorem C5_preprocess_fixes (inst : ProblemInstance) (alphas : List ℚ)
    (mo : ℚ) (j d r k : String) (t : ℕ) :
    ((j, d, r, k, t) ∈ fixedSet inst alphas mo ↔
      (j ∈ inst.surgeries.map Surgery.id ∧ d ∈ inst.days.map Day.id ∧
       k ∈ inst.doctors.map Doctor.id ∧ r ∈ inst.rooms.map Room.id ∧
       t < alphas.length ∧
       (capResolve inst k d = 0 ∨
        ∃ e, durAt inst alphas j r k t = some e ∧
          DurE.exceedsR e (capResolve inst k d + mo)))) ∧
    (capResolve inst k d = 0 →
      j ∈ inst.surgeries.map Surgery.id → d ∈ inst.days.map Day.id →
      k ∈ inst.doctors.map Doctor.id →
      ∀ r' ∈ inst.rooms.map Room.id, ∀ t' < alphas.length,
        (j, d, r', k, t') ∈ fixedSet inst alphas mo) := by
  constructor
  · constructor
    · rintro ⟨hj, hd, hk, hr, ht, hcond⟩
      by_cases hc : capResolve inst k d = 0
      · exact ⟨hj, hd, hk, hr, ht, Or.inl hc⟩
      · rw [if_neg hc] at hcond
        exact ⟨hj, hd, hk, hr, ht, Or.inr hcond⟩
    · rintro ⟨hj, hd, hk, hr, ht, ho⟩
      by_cases hc : capResolve inst k d = 0
      · exact ⟨hj, hd, hk, hr, ht, by rw [if_pos hc]; trivial⟩
      · rcases ho with hc' | hex
        · exact absurd hc' hc
        · exact ⟨hj, hd, hk, hr, ht, by rw [if_neg hc]; exact hex⟩
  · intro hc hj hd hk r' hr' t' ht'
    exact ⟨hj, hd, hk, hr', ht', by rw [if_pos hc]; trivial⟩

theorem C5_preprocess_fixes_witness :
    ("S1", "D1", "R1", "K1", 0) ∈ fixedSet instZ [1/2] 60 :=
  (C5_preprocess_fixes instZ [1/2] 60 "S1" "D1" "R1" "K1" 0).2 rfl
    (by simp [instZ, okSurgery]) (by simp [instZ, okDay])
    (by simp [instZ, zeroCapDoctor]) "R1" (by simp [instZ, okRoom])
    0 (by norm_num)

/-- C9: every tuple in VALID has strictly positive resolved doctor-day
capacity, a present duration entry that does not exceed capacity + max
doctor overtime, and is not among the tuples fixed to zero by
preprocessing. -/
theorem C9_valid_invariant (inst : ProblemInstance) (alphas : List ℚ)
    (mo : ℚ) (j d r k : String) (t : ℕ)
    (h : (j, d, r, k, t) ∈ validSet inst alphas mo) :
    (0 < capResolve inst k d ∧
      ∃ e, durAt inst alphas j r k t = some e ∧
        ¬ DurE.exceedsR e (capResolve inst k d + mo)) ∧
    (j, d, r, k, t) ∉ fixedSet inst alphas mo := by
  obtain ⟨hj, hd, hr, hk, hcap, hsome, hnf⟩ := h
  refine ⟨⟨hcap, ?_⟩, hnf⟩
  obtain ⟨e, he⟩ := Option.isSome_iff_exists.mp hsome
  refine ⟨e, he, fun hex => hnf ?_⟩
  refine ⟨hj, hd, hk, hr, durAt_some_lt he, ?_⟩
  by_cases hc : capResolve inst k d = 0
  · exact absurd hc (ne_of_gt hcap)
  · rw [if_neg hc]
    exact ⟨e, he, hex⟩

theorem C9_valid_invariant_witness :
    (0 < capResolve okInst "K1" "D1" ∧
      ∃ e, durAt okInst [1/2] "S1" "R1" "K1" 0 = some e ∧
        ¬ DurE.exceedsR e (capResolve okInst "K1" "D1" + 60)) ∧
    ("S1", "D1", "R1", "K1", 0) ∉ fixedSet okInst [1/2] 60 := by
  apply C9_valid_invariant okInst [1/2] 60 "S1" "D1" "R1" "K1" 0
  have hcap : capResolve okInst "K1" "D1" = 480 := rfl
  have h1 : dictOf okInst.surgeries Surgery.id "S1" = some okSurgery := rfl
  have h2 : dictOf okInst.rooms Room.id "R1" = some okRoom := rfl
  have h3 : dictOf okInst.doctors Doctor.id "K1" = some okDoctor := rfl
  have h4 : resolveMuSigma okSurgery okRoom okDoctor = some ⟨100, 0⟩ := rfl
  have h5 : ([1/2] : List ℚ)[0]? = some (1/2) := rfl
  have hdur : durAt okInst [1/2] "S1" "R1" "K1" 0 =
      some (.val 100 0 (1/2)) := by
    simp [durAt, h1, h2, h3, h4, h5]
    norm_num
  refine ⟨by simp [okInst, okSurgery], by simp [okInst, okDay],
    by simp [okInst, okRoom], by simp [okInst, okDoctor],
    by rw [hcap]; norm_num, by rw [hdur]; rfl, ?_⟩
  rintro ⟨-, -, -, -, -, hcond⟩
  rw [if_neg (by rw [hcap]; norm_num)] at hcond
  obtain ⟨e, he, hex⟩ := hcond
  rw [hdur] at he
  cases he
  rw [hcap] at hex
  simp only [DurE.exceedsR] at hex
  unfold buffered at hex
  push_cast at hex
  rw [zero_mul, add_zero] at hex
  norm_num at hex

/-- ln(1 - x) is antitone on arguments below 1. -/
theorem logOneSub_le {a b : ℚ} (hb : b < 1) (hab : a ≤ b) :
    Real.log (1 - (b : ℝ)) ≤ Real.log (1 - (a : ℝ)) := by
  apply Real.log_le_log
  · have hb' : (b : ℝ) < 1 := by exact_mod_cast hb
    linarith
  · have hab' : (a : ℝ) ≤ (b : ℝ) := by exact_mod_cast hab
    linarith

/-- Folding max over the images under ln(1 - ·) equals the image of the
folded min, for arguments below 1. -/
theorem foldl_max_log (xs : List ℚ) :
    ∀ x : ℚ, x < 1 → (∀ a ∈ xs, a < 1) →
      (xs.map (fun a : ℚ => Real.log (1 - (a : ℝ)))).foldl max
          (Real.log (1 - (x : ℝ))) =
        Real.log (1 - ((xs.foldl min x : ℚ) : ℝ)) := by
  induction xs with
  | nil => intro x _ _; rfl
  | cons y ys ih =>
    intro x hx hall
    have hy : y < 1 := hall y (List.mem_cons_self y ys)
    have hmaxmin : max (Real.log (1 - (x : ℝ))) (Real.log (1 - (y : ℝ))) =
        Real.log (1 - ((min x y : ℚ) : ℝ)) := by
      rcases le_total x y with h | h
      · rw [min_eq_left h, max_eq_left (logOneSub_le hy h)]
      · rw [min_eq_right h, max_eq_right (logOneSub_le hx h)]
    calc ((y :: ys).map (fun a : ℚ => Real.log (1 - (a : ℝ)))).foldl max
            (Real.log (1 - (x : ℝ)))
        = (ys.map (fun a : ℚ => Real.log (1 - (a : ℝ)))).foldl max
            (max (Real.log (1 - (x : ℝ))) (Real.log (1 - (y : ℝ)))) := rfl
      _ = (ys.map (fun a : ℚ => Real.log (1 - (a : ℝ)))).foldl max
            (Real.log (1 - ((min x y : ℚ) : ℝ))) := by rw [hmaxmin]
      _ = Real.log (1 - ((ys.foldl min (min x y) : ℚ) : ℝ)) :=
            ih (min x y) (lt_of_le_of_lt (min_le_left x y) hx)
              (fun a ha => hall a (List.mem_cons_of_mem y ha))
      _ = Real.log (1 - (((y :: ys).foldl min x : ℚ) : ℝ)) := rfl

/-- The maximum of ln(1 - a) over a nonempty alpha choice set below 1 is
attained at the smallest alpha. -/
theorem max_ln_alpha_eq (alphas : List ℚ) (hne : alphas ≠ [])
    (hlt : ∀ a ∈ alphas, a < 1) :
    max_ln_alpha alphas = Real.log (1 - ((listMinQ alphas : ℚ) : ℝ)) := by
  match alphas with
  | [] => exact absurd rfl hne
  | x :: xs =>
    show (xs.map (fun a : ℚ => Real.log (1 - (a : ℝ)))).foldl max
        (Real.log (1 - (x : ℝ))) = _
    exact foldl_max_log xs x (hlt x (List.mem_cons_self x xs))
      (fun a ha => hlt a (List.mem_cons_of_mem x ha))

/-- The folded min of a list is one of its members. -/
theorem foldl_min_mem (xs : List ℚ) :
    ∀ x : ℚ, xs.foldl min x ∈ x :: xs := by
  induction xs with
  | nil => intro x; exact List.mem_singleton.mpr rfl
  | cons y ys ih =>
    intro x
    have h := ih (min x y)
    show List.foldl min (min x y) ys ∈ x :: y :: ys
    rcases List.mem_cons.mp h with h1 | h1
    · rw [h1]
      rcases min_choice x y with h2 | h2
      · rw [h2]
        exact List.mem_cons_self x (y :: ys)
      · rw [h2]
        exact List.mem_cons.mpr (Or.inr (List.mem_cons_self y ys))
    · exact List.mem_cons.mpr (Or.inr (List.mem_cons_of_mem y h1))

/-- listMinQ of a nonempty list is a member. -/
theorem listMinQ_mem (alphas : List ℚ) (hne : alphas ≠ []) :
    listMinQ alphas ∈ alphas := by
  match alphas with
  | [] => exact absurd rfl hne
  | x :: xs => exact foldl_min_mem xs x

/-- C1 counterexample: with alpha choices 1/10 and 1/2 and epsilon 1/4,
the code's reliability check declares one surgery per day achievable,
yet 1 * ln(1 - alpha_max) ≥ ln(1 - epsilon) fails for the largest alpha
1/2 — the code maximizes ln(1 - a), which the smallest alpha attains,
not the largest. -/
theorem C1_reliability_check_counterexample :
    listMaxQ [1/10, 1/2] = 1/2 ∧
    checkFeasible [1/10, 1/2] (1/4) 1 ∧
    ¬ ((1 : ℝ) * Real.log (1 - (1/2 : ℝ)) ≥ required_ln (1/4)) := by
  refine ⟨by norm_num [listMaxQ], ?_, ?_⟩
  · show required_ln (1/4) ≤ achievable_ln [1/10, 1/2] 1
    have h1 : required_ln (1/4) ≤ Real.log (1 - ((1/10 : ℚ) : ℝ)) := by
      unfold required_ln
      apply Real.log_le_log (by norm_num)
      push_cast
      norm_num
    have h2 : achievable_ln [1/10, 1/2] 1 =
        max (Real.log (1 - ((1/10 : ℚ) : ℝ))) (Real.log (1 - ((1/2 : ℚ) : ℝ))) := by
      simp only [achievable_ln, max_ln_alpha, List.map_cons, List.map_nil,
        listMax, List.foldl_cons, List.foldl_nil, Nat.cast_one, one_mul]
    rw [h2]
    exact le_trans h1 (le_max_left _ _)
  · rw [ge_iff_le, not_le, one_mul]
    unfold required_ln
    push_cast
    apply Real.log_lt_log (by norm_num)
    norm_num

/-- C1 amended: the reliability check declares n achievable iff
n * ln(1 - alpha_min) ≥ ln(1 - epsilon), where alpha_min is the SMALLEST
(most conservative) alpha in the choice set — the one attaining the
maximum of ln(1 - a) — and reliability is feasible overall iff at least
one n in 1..numSurgeries is achievable in that sense. -/
theorem C1_reliability_check_amended (alphas : List ℚ) (eps : ℚ) (N n : ℕ)
    (hne : alphas ≠ []) (hlt : ∀ a ∈ alphas, a < 1) :
    (checkFeasible alphas eps n ↔
      required_ln eps ≤ (n : ℝ) * Real.log (1 - ((listMinQ alphas : ℚ) : ℝ))) ∧
    (reliability_feasible alphas eps N ↔
      ∃ m, 1 ≤ m ∧ m ≤ N ∧
        required_ln eps ≤
          (m : ℝ) * Real.log (1 - ((listMinQ alphas : ℚ) : ℝ))) := by
  have hmx := max_ln_alpha_eq alphas hne hlt
  constructor
  · unfold checkFeasible achievable_ln
    rw [hmx]
  · unfold reliability_feasible checkFeasible achievable_ln
    rw [hmx]

theorem C1_reliability_check_amended_witness :
    checkFeasible [1/10, 1/2] (1/4) 1 ↔
      required_ln (1/4) ≤
        ((1 : ℕ) : ℝ) * Real.log (1 - ((listMinQ [1/10, 1/2] : ℚ) : ℝ)) :=
  (C1_reliability_check_amended [1/10, 1/2] (1/4) 1 1 (by simp)
    (by norm_num)).1

/-- C10: with all alphas in (0,1), epsilon in (0,1) and at least one
surgery, the achievable log-reliability is non-increasing in the
surgeries-per-day count, the feasible counts are downward closed, and
reliability is feasible overall iff ln(1 - alpha_min) ≥ ln(1 - epsilon),
equivalently iff the smallest configured alpha is at most epsilon. -/
theorem C10_reliability_monotone (alphas : List ℚ) (eps : ℚ) (N : ℕ)
    (hne : alphas ≠ []) (h01 : ∀ a ∈ alphas, 0 < a ∧ a < 1)
    (he0 : 0 < eps) (he1 : eps < 1) (hN : 1 ≤ N) :
    (∀ n m : ℕ, n ≤ m → achievable_ln alphas m ≤ achievable_ln alphas n) ∧
    (∀ n m : ℕ, 1 ≤ n → n ≤ m →
      checkFeasible alphas eps m → checkFeasible alphas eps n) ∧
    (reliability_feasible alphas eps N ↔
      required_ln eps ≤ Real.log (1 - ((listMinQ alphas : ℚ) : ℝ))) ∧
    (reliability_feasible alphas eps N ↔ listMinQ alphas ≤ eps) := by
  have hlt : ∀ a ∈ alphas, a < 1 := fun a ha => (h01 a ha).2
  have hmx := max_ln_alpha_eq alphas hne hlt
  have hmem := listMinQ_mem alphas hne
  have hm0 : 0 < listMinQ alphas := (h01 _ hmem).1
  have hm1 : listMinQ alphas < 1 := (h01 _ hmem).2
  have hm0' : (0 : ℝ) < (listMinQ alphas : ℝ) := by exact_mod_cast hm0
  have hm1' : ((listMinQ alphas : ℚ) : ℝ) < 1 := by exact_mod_cast hm1
  have hL0 : max_ln_alpha alphas < 0 := by
    rw [hmx]
    apply Real.log_neg <;> linarith
  have hmono : ∀ n m : ℕ, n ≤ m →
      achievable_ln alphas m ≤ achievable_ln alphas n := by
    intro n m hnm
    unfold achievable_ln
    apply mul_le_mul_of_nonpos_right _ (le_of_lt hL0)
    exact_mod_cast hnm
  have hiff1 : reliability_feasible alphas eps N ↔
      required_ln eps ≤ Real.log (1 - ((listMinQ alphas : ℚ) : ℝ)) := by
    constructor
    · rintro ⟨n, hn1, -, hf⟩
      have h2 : achievable_ln alphas n ≤ achievable_ln alphas 1 := hmono 1 n hn1
      have h3 : achievable_ln alphas 1 = max_ln_alpha alphas := by
        unfold achievable_ln
        rw [Nat.cast_one, one_mul]
      calc required_ln eps ≤ achievable_ln alphas n := hf
        _ ≤ achievable_ln alphas 1 := h2
        _ = Real.log (1 - ((listMinQ alphas : ℚ) : ℝ)) := by rw [h3, hmx]
    · intro h
      refine ⟨1, le_refl 1, hN, ?_⟩
      unfold checkFeasible achievable_ln
      rw [Nat.cast_one, one_mul, hmx]
      exact h
  have heq : (required_ln eps ≤ Real.log (1 - ((listMinQ alphas : ℚ) : ℝ))) ↔
      listMinQ alphas ≤ eps := by
    unfold required_ln
    have he1' : (eps : ℝ) < 1 := by exact_mod_cast he1
    rw [Real.log_le_log_iff (by linarith) (by linarith)]
    constructor
    · intro h
      have : (listMinQ alphas : ℝ) ≤ (eps : ℝ) := by linarith
      exact_mod_cast this
    · intro h
      have : (listMinQ alphas : ℝ) ≤ (eps : ℝ) := by exact_mod_cast h
      linarith
  exact ⟨hmono, fun n m h1 hnm hm =>
    le_trans hm (hmono n m hnm), hiff1, hiff1.trans heq⟩

theorem C10_reliability_monotone_witness :
    reliability_feasible [1/10, 1/2] (1/4) 3 ↔ listMinQ [1/10, 1/2] ≤ 1/4 :=
  (C10_reliability_monotone [1/10, 1/2] (1/4) 3 (by simp) (by norm_num)
    (by norm_num) (by norm_num) (by norm_num)).2.2.2

/-- A dict-update step shifts the lookup of each key: the updated key's
group gains the entry at its tail; other keys are untouched. -/
theorem lookupA_addToDay (acc : List (String × List SchedEntry))
    (s : SchedEntry) (d : String) :
    lookupA (addToDay acc s) d =
      if s.day = d then some ((lookupA acc d).getD [] ++ [s])
      else lookupA acc d := by
  induction acc with
  | nil =>
    by_cases h : s.day = d
    · simp [addToDay, lookupA, h]
    · simp [addToDay, lookupA, h]
  | cons p ps ih =>
    by_cases hp : p.1 = s.day
    · by_cases h : s.day = d
      · have hpd : p.1 = d := hp.trans h
        simp [addToDay, lookupA, hp, hpd, h]
      · have hpd : ¬ p.1 = d := fun hh => h (hp.symm.trans hh)
        simp [addToDay, lookupA, hp, hpd, h]
    · have hhd : lookupA (p :: addToDay ps s) d =
          if p.1 = d then some p.2 else lookupA (addToDay ps s) d := by
        by_cases hpd : p.1 = d <;> simp [lookupA, hpd]
      have hhd2 : lookupA (p :: ps) d =
          if p.1 = d then some p.2 else lookupA ps d := by
        by_cases hpd : p.1 = d <;> simp [lookupA, hpd]
      have hstep : addToDay (p :: ps) s = p :: addToDay ps s := by
        simp [addToDay, hp]
      rw [hstep, hhd, hhd2]
      by_cases hpd : p.1 = d
      · have hsd : ¬ s.day = d := fun hh => hp (hpd.trans hh.symm)
        simp [hpd, hsd]
      · simp only [if_neg hpd]
        exact ih

/-- Folding the remaining schedule after a key already has a group
appends exactly that day's realized surgeries. -/
theorem foldl_addToDay_some (rest : List SchedEntry) :
    ∀ (acc : List (String × List SchedEntry)) (d : String)
      (l : List SchedEntry),
      lookupA acc d = some l →
      lookupA (rest.foldl addToDay acc) d = some (l ++ grp rest d) := by
  induction rest with
  | nil =>
    intro acc d l h
    simpa [grp] using h
  | cons s rs ih =>
    intro acc d l h
    rw [List.foldl_cons]
    by_cases hsd : s.day = d
    · have h2 : lookupA (addToDay acc s) d = some (l ++ [s]) := by
        rw [lookupA_addToDay, if_pos hsd, h]
        rfl
      rw [ih _ _ _ h2]
      simp [grp, List.filter_cons, hsd]
    · have h2 : lookupA (addToDay acc s) d = some l := by
        rw [lookupA_addToDay, if_neg hsd, h]
      rw [ih _ _ _ h2]
      simp [grp, List.filter_cons, hsd]

/-- Folding a schedule from an accumulator without a key produces that
key's group exactly when the day is realized. -/
theorem foldl_addToDay_none (rest : List SchedEntry) :
    ∀ (acc : List (String × List SchedEntry)) (d : String),
      lookupA acc d = none →
      lookupA (rest.foldl addToDay acc) d =
        if grp rest d = [] then none else some (grp rest d) := by
  induction rest with
  | nil =>
    intro acc d h
    simp [grp, h]
  | cons s rs ih =>
    intro acc d h
    rw [List.foldl_cons]
    by_cases hsd : s.day = d
    · have h2 : lookupA (addToDay acc s) d = some [s] := by
        rw [lookupA_addToDay, if_pos hsd, h]
        rfl
      rw [foldl_addToDay_some rs _ _ _ h2]
      have hg : grp (s :: rs) d = s :: grp rs d := by
        simp [grp, List.filter_cons, hsd]
      rw [hg]
      simp
    · have h2 : lookupA (addToDay acc s) d = none := by
        rw [lookupA_addToDay, if_neg hsd, h]
      rw [ih _ _ h2]
      have hg : grp (s :: rs) d = grp rs d := by
        simp [grp, List.filter_cons, hsd]
      rw [hg]

/-- The by_day grouping assigns to each realized day exactly that day's
realized surgeries, in schedule order. -/
theorem byDay_grp (sch : List SchedEntry) (d : String) (h : grp sch d ≠ []) :
    lookupA (byDay sch) d = some (grp sch d) := by
  unfold byDay
  rw [foldl_addToDay_none sch [] d rfl, if_neg h]

/-- C7: for every day on which the extracted schedule realizes at least
one surgery, the reliability report contains an entry whose lhs is the
sum of ln(1 - alpha) over that day's surgeries, whose rhs is
ln(1 - epsilon) for the day's resolved epsilon, whose slack is lhs - rhs,
and which is marked satisfied exactly when the slack is at least the
negated tolerance 1e-6 — a strictly positive tolerance, not a hard
zero. -/
theorem C7_verify_reliability (sch : List SchedEntry) (eps : EpsInput)
    (d : String) (h : ∃ s ∈ sch, s.day = d) :
    ∃ c : RelCheck, (d, c) ∈ verify_reliability sch eps ∧
      c.lhs = ((sch.filter (fun s => s.day == d)).map
        (fun s => Real.log (1 - (s.alpha : ℝ)))).sum ∧
      c.rhs = Real.log (1 - (epsVerify eps d : ℝ)) ∧
      c.slack = c.lhs - c.rhs ∧
      (c.satisfied ↔ c.slack ≥ -(1/1000000 : ℝ)) ∧
      (0 : ℝ) < 1/1000000 := by
  obtain ⟨s0, hs0, hday⟩ := h
  have hgrp : grp sch d ≠ [] := by
    intro hempty
    have hmem : s0 ∈ sch.filter (fun s => s.day == d) :=
      List.mem_filter.mpr ⟨hs0, by simp [hday]⟩
    rw [show sch.filter (fun s => s.day == d) = grp sch d from rfl,
      hempty] at hmem
    exact absurd hmem (List.not_mem_nil s0)
  have hl := byDay_grp sch d hgrp
  unfold lookupA at hl
  cases hfind : (byDay sch).find? (fun p => p.1 == d) with
  | none =>
    rw [hfind] at hl
    exact absurd hl (by simp)
  | some p =>
    rw [hfind] at hl
    have hp2 : p.2 = grp sch d := by
      simpa using hl
    have hp1 : p.1 = d := by
      have := List.find?_some hfind
      simpa using this
    have hpmem : p ∈ byDay sch := List.mem_of_find?_eq_some hfind
    refine ⟨⟨((grp sch d).map (fun s => Real.log (1 - (s.alpha : ℝ)))).sum,
      Real.log (1 - (epsVerify eps d : ℝ)),
      ((grp sch d).map (fun s => Real.log (1 - (s.alpha : ℝ)))).sum -
        Real.log (1 - (epsVerify eps d : ℝ)),
      ((grp sch d).map (fun s => Real.log (1 - (s.alpha : ℝ)))).sum -
        Real.log (1 - (epsVerify eps d : ℝ)) ≥ -(1/1000000 : ℝ),
      epsVerify eps d⟩, ?_, rfl, rfl, rfl, Iff.rfl, by norm_num⟩
    have hpeq : p = (d, grp sch d) := Prod.ext hp1 hp2
    rw [hpeq] at hpmem
    exact List.mem_map_of_mem _ hpmem

theorem C7_verify_reliability_witness :
    ∃ c : RelCheck,
      ("D1", c) ∈ verify_reliability [⟨"D1", 1/2⟩] (.glob (1/4)) ∧
      c.lhs = ((([⟨"D1", 1/2⟩] : List SchedEntry).filter
        (fun s => s.day == "D1")).map
          (fun s => Real.log (1 - (s.alpha : ℝ)))).sum ∧
      c.rhs = Real.log (1 - (epsVerify (.glob (1/4)) "D1" : ℝ)) ∧
      c.slack = c.lhs - c.rhs ∧
      (c.satisfied ↔ c.slack ≥ -(1/1000000 : ℝ)) ∧
      (0 : ℝ) < 1/1000000 :=
  C7_verify_reliability [⟨"D1", 1/2⟩] (.glob (1/4)) "D1"
    ⟨⟨"D1", 1/2⟩, List.mem_singleton.mpr rfl, rfl⟩

end SurgSched
